import Mathlib

/-!
Shallow embedding of the two-layer guardrail system in
`src/custom/guardrails.py` (class `GuardrailsSystem`), together with proofs
of the behavioural properties claimed by the specification.

Strings are modelled as `List Char`; the classifier call of layer two is
modelled as an oracle value `Except String String` (error message, or the
reply text).  The fuzzywuzzy similarity score `fuzz.ratio` is modelled as
the Levenshtein/indel ratio `round(200 * lcs / (len1 + len2))` with
round-half-to-even, matching the python-Levenshtein backed implementation;
`fuzz.token_sort_ratio` additionally pre-processes and sorts the word
tokens of both arguments, as the library does.
-/

/-- Python regex word character (`\w`), restricted to the ASCII alphabet used
by the configuration and test data: letters, digits, underscore. -/
def isWordChar (c : Char) : Bool :=
  c.isAlphanum || c == '_'

/-- Python whitespace (`\s` / `str.strip`), ASCII part. -/
def isSpaceChar (c : Char) : Bool :=
  c == ' ' || c == '\t' || c == '\n' || c == '\r' || c == '\x0b' || c == '\x0c'

/-- Word-character test on an optional character; a missing character (string
edge) counts as non-word, as in the regex `\b` semantics. -/
def optWord : Option Char → Bool
  | some c => isWordChar c
  | none => false

/-- `s.lower()` on the character list of a string. -/
def lowerStr (s : String) : List Char :=
  s.data.map Char.toLower

/-- One position of the search for `\b<term>\b` (with `re.escape`, so `term`
is literal): `term` is a prefix of the remaining input `s`, with a word
boundary before it (`prev` is the character just before `s`, if any) and a
word boundary after it. -/
def matchHere (prev : Option Char) (term s : List Char) : Bool :=
  term.isPrefixOf s
  && (optWord prev != optWord s.head?)
  && (optWord (if term.isEmpty then prev else term.getLast?)
      != optWord ((s.drop term.length).head?))

/-- Scan of `re.search` for the word-bounded literal `term`: try every
position of `s`, threading the previous character. -/
def reSearchGo (term : List Char) : Option Char → List Char → Bool
  | prev, [] => matchHere prev term []
  | prev, c :: s => matchHere prev term (c :: s) || reSearchGo term (some c) s

/-- `re.search(r'\b' + re.escape(term) + r'\b', s) is not None`. -/
def reSearchBounded (term s : List Char) : Bool :=
  reSearchGo term none s

/-- The character just before the current scan position: the last character
of the part `a` already consumed, or the character `prev` preceding it when
`a` is empty.  Used to state the correctness of the `\b`-bounded search. -/
def lastOr (prev : Option Char) (a : List Char) : Option Char :=
  match a.getLast? with
  | some c => some c
  | none => prev

/-- The exact-match loops of `_apply_layer_one`: first term of the list whose
lowercased form occurs word-bounded in the lowercased input. -/
def lexFind (terms : List String) (low : List Char) : Option String :=
  terms.find? fun t => reSearchBounded (lowerStr t) low

/-- Maximal runs of characters satisfying `p` (accumulator is reversed). -/
def runsGo (p : Char → Bool) : List Char → List Char → List (List Char)
  | acc, [] => if acc.isEmpty then [] else [acc.reverse]
  | acc, c :: cs =>
    if p c then runsGo p (c :: acc) cs
    else if acc.isEmpty then runsGo p [] cs
    else acc.reverse :: runsGo p [] cs

/-- `re.findall(r'\b\w+\b', s)`: the maximal runs of word characters. -/
def tokenize (s : List Char) : List (List Char) :=
  runsGo isWordChar [] s

/-- Python `str.split()`: maximal runs of non-whitespace characters. -/
def splitWhite (s : List Char) : List (List Char) :=
  runsGo (fun c => !isSpaceChar c) [] s

/-- One row of the longest-common-subsequence dynamic program: `diagRow` is
the previous row (aligned so its head is the diagonal entry), `left` the
entry just computed in the current row. -/
def lcsRow (a : Char) : List Char → List Nat → Nat → List Nat
  | [], _, _ => []
  | _ :: _, [], _ => []
  | b :: bs, diag :: ps, left =>
    let cur := if a == b then diag + 1 else max left (ps.headD 0)
    cur :: lcsRow a bs ps cur

/-- Length of the longest common subsequence of two character lists. -/
def lcs (as bs : List Char) : Nat :=
  (as.foldl (fun row a => 0 :: lcsRow a bs row 0)
    (List.replicate (bs.length + 1) 0)).getLastD 0

/-- Round the rational `num / den` to the nearest natural number, ties to
even, as Python `round` does. -/
def roundHalfEven (num den : Nat) : Nat :=
  let q := num / den
  let r := num % den
  if 2 * r < den then q
  else if den < 2 * r then q + 1
  else if q % 2 = 0 then q else q + 1

/-- `fuzz.ratio`: the indel similarity `round(200 * lcs / (|a| + |b|))`, with
the empty-vs-empty case scoring 100 as in the library. -/
def fuzzScore (a b : List Char) : Nat :=
  if a.length + b.length = 0 then 100
  else roundHalfEven (200 * lcs a b) (a.length + b.length)

/-- Python `str.strip()` limited to the whitespace alphabet above. -/
def stripChars (s : List Char) : List Char :=
  ((s.dropWhile isSpaceChar).reverse.dropWhile isSpaceChar).reverse

/-- Substring containment (`pat in s` on Python strings). -/
def containsSub : List Char → List Char → Bool
  | [], pat => pat.isEmpty
  | c :: s, pat => pat.isPrefixOf (c :: s) || containsSub s pat

/-- Index of the first occurrence of `pat` in `s`, if any. -/
def findSubIdx? : List Char → List Char → Option Nat
  | [], pat => if pat.isEmpty then some 0 else none
  | c :: s, pat =>
    if pat.isPrefixOf (c :: s) then some 0
    else (findSubIdx? s pat).map (· + 1)

/-- `fuzzywuzzy.utils.full_process`: replace non-word characters by spaces,
lowercase, strip. -/
def fullProcess (s : List Char) : List Char :=
  stripChars (s.map fun c => if isWordChar c then c.toLower else ' ')

/-- Score used by `process.extractOne(..., scorer=fuzz.ratio)`: the default
processor `full_process` is applied to the query and to each choice. -/
def ratioProcessed (q c : List Char) : Nat :=
  fuzzScore (fullProcess q) (fullProcess c)

/-- Lexicographic comparison of strings by character code, as Python uses
when sorting strings. -/
def strLe : List Char → List Char → Bool
  | [], _ => true
  | _ :: _, [] => false
  | a :: as, b :: bs =>
    if a.val < b.val then true
    else if b.val < a.val then false
    else strLe as bs

/-- Insertion step of a stable insertion sort on strings. -/
def insertStr (x : List Char) : List (List Char) → List (List Char)
  | [] => [x]
  | y :: ys => if strLe x y then x :: y :: ys else y :: insertStr x ys

/-- Stable sort of a list of strings (Python `sorted`). -/
def sortStrs : List (List Char) → List (List Char)
  | [] => []
  | x :: xs => insertStr x (sortStrs xs)

/-- `" ".join(tokens)`. -/
def joinSpace : List (List Char) → List Char
  | [] => []
  | [t] => t
  | t :: u :: ts => t ++ ' ' :: joinSpace (u :: ts)

/-- `fuzzywuzzy._process_and_sort`: full-process, split into word tokens,
sort them, re-join with single spaces. -/
def processAndSort (s : List Char) : List Char :=
  joinSpace (sortStrs (splitWhite (fullProcess s)))

/-- `fuzz.token_sort_ratio`. -/
def tokenSortScore (a b : List Char) : Nat :=
  fuzzScore (processAndSort a) (processAndSort b)

/-- Python `max(pairs, key=score)`: first pair of maximal score; `none` on an
empty list (as `process.extractOne` returns `None` for empty choices). -/
def maxBySnd : List (List Char × Nat) → Option (List Char × Nat)
  | [] => none
  | x :: xs => some (xs.foldl (fun best y => if best.2 < y.2 then y else best) x)

/-- `process.extractOne(query, choices, scorer)` with `score_cutoff=0`. -/
def extractOneScored (scorer : List Char → List Char → Nat)
    (query : List Char) (choices : List (List Char)) : Option (List Char × Nat) :=
  maxBySnd (choices.map fun c => (c, scorer query c))

/-- The token-level fuzzy competitor loop of `_apply_layer_one`: first token
longer than 3 characters whose best `fuzz.ratio` score against the
lowercased competitor list reaches the competitor threshold.  Returns the
token, the matched (lowercased) competitor, and the score; shorter tokens
and tokens scoring below the threshold are skipped, as in the loop. -/
def fuzzyCompFind (thr : Nat) (competitors : List String) :
    List (List Char) → Option (List Char × List Char × Nat)
  | [] => none
  | token :: rest =>
    if 3 < token.length then
      match extractOneScored ratioProcessed token (competitors.map lowerStr) with
      | some (c, score) =>
        if thr ≤ score then some (token, c, score)
        else fuzzyCompFind thr competitors rest
      | none => fuzzyCompFind thr competitors rest
    else fuzzyCompFind thr competitors rest

/-- The contiguous 2-token windows of the token list, joined by a space. -/
def bigrams : List (List Char) → List (List Char)
  | [] => []
  | [_] => []
  | a :: b :: rest => (a ++ ' ' :: b) :: bigrams (b :: rest)

/-- The loop body of the bigram fuzzy jailbreak check, over the list of
bigram strings: first bigram whose best `fuzz.token_sort_ratio` score
against the lowercased jailbreak list reaches the fuzzy threshold. -/
def fuzzyJBGo (thr : Nat) (jailbreak : List String) :
    List (List Char) → Option (List Char × List Char × Nat)
  | [] => none
  | ngram :: rest =>
    match extractOneScored tokenSortScore ngram (jailbreak.map lowerStr) with
    | some (t, score) =>
      if thr ≤ score then some (ngram, t, score)
      else fuzzyJBGo thr jailbreak rest
    | none => fuzzyJBGo thr jailbreak rest

/-- The bigram fuzzy jailbreak check of `_apply_layer_one`. -/
def fuzzyJBFind (thr : Nat) (jailbreak : List String)
    (tokens : List (List Char)) : Option (List Char × List Char × Nat) :=
  fuzzyJBGo thr jailbreak (bigrams tokens)

/-- The configuration fields read by `GuardrailsSystem.__init__`. -/
structure Config where
  competitors : List String
  off_topic : List String
  jailbreak : List String
  fuzzy_threshold : Nat
  competitor_threshold : Nat

/-- `GuardrailsSystem._apply_layer_one`: exact word-bounded matches against
competitors, off-topic terms and jailbreak terms in that order, then the
token-level fuzzy competitor check, then the bigram fuzzy jailbreak check. -/
def applyLayerOne (cfg : Config) (user_input : String) : Bool × Option String :=
  let low := lowerStr user_input
  match lexFind cfg.competitors low with
  | some c => (false, some ("Input mentions competitor: " ++ c))
  | none =>
  match lexFind cfg.off_topic low with
  | some t => (false, some ("Input contains off-topic term: " ++ t))
  | none =>
  match lexFind cfg.jailbreak low with
  | some t => (false, some ("Input contains potential jailbreak attempt: " ++ t))
  | none =>
  let tokens := tokenize low
  match fuzzyCompFind cfg.competitor_threshold cfg.competitors tokens with
  | some r =>
    (false, some ("Input possibly mentions competitor: " ++ String.mk r.2.1 ++ " (fuzzy match)"))
  | none =>
  match fuzzyJBFind cfg.fuzzy_threshold cfg.jailbreak tokens with
  | some r =>
    (false, some ("Input possibly contains jailbreak attempt: " ++ String.mk r.2.1 ++ " (fuzzy match)"))
  | none => (true, none)

/-- The reply marker whose presence makes layer two judge the input safe. -/
def safeMarker : List Char := 'I' :: 'S' :: '_' :: 'S' :: 'A' :: 'F' :: 'E' :: ':' :: ' ' :: 'Y' :: 'E' :: 'S' :: []

/-- The marker introducing the reason line of an unsafe reply. -/
def reasonMarker : List Char := 'R' :: 'E' :: 'A' :: 'S' :: 'O' :: 'N' :: ':' :: []

/-- `re.search(r'REASON:\s*(.*)', s)` and `.group(1)`: text after the first
`REASON:` marker, leading whitespace skipped, up to the end of the line. -/
def reasonOf (s : List Char) : Option (List Char) :=
  match findSubIdx? s reasonMarker with
  | some i =>
    some (((s.drop (i + reasonMarker.length)).dropWhile isSpaceChar).takeWhile
      (fun c => c != '\n'))
  | none => none

/-- The reply parsing of `_apply_layer_two`: strip the reply, judge it safe
exactly when it contains `IS_SAFE: YES`, otherwise extract the reason via
the `REASON:` marker, with a generic fallback when the marker is absent. -/
def parseReply (text : String) : Bool × Option String :=
  let result := stripChars text.data
  if containsSub result safeMarker then (true, none)
  else
    match reasonOf result with
    | some r => (false, some (String.mk r))
    | none => (false, some "Content flagged by secondary AI check")

/-- `GuardrailsSystem._apply_layer_two`, with the external completion call
modelled as an oracle: an exception (`error`) is mapped to the fail-closed
unsafe result, a reply (`ok`) is parsed. -/
def applyLayerTwo (reply : Except String String) : Bool × Option String :=
  match reply with
  | Except.ok text => parseReply text
  | Except.error e => (false, some ("Error in secondary content check: " ++ e))

/-- `GuardrailsSystem.check_input`: layer one, then (only if it passes) layer
two; the classifier oracle is a function of the input text. -/
def check_input (cfg : Config) (classify : String → Except String String)
    (user_input : String) : Bool × Option String :=
  let r1 := applyLayerOne cfg user_input
  if !r1.1 then (false, r1.2)
  else
    let r2 := applyLayerTwo (classify user_input)
    if !r2.1 then (false, r2.2)
    else (true, none)

/-- A sequence of `check_input` invocations against an indexed oracle: call
number `k` receives the oracle of index `k`.  The system keeps no state
between calls, so each call is just `check_input` with that oracle. -/
def check_input_call (cfg : Config) (oracle : Nat → String → Except String String)
    (k : Nat) (user_input : String) : Bool × Option String :=
  check_input cfg (oracle k) user_input

/-- A classifier reply is well formed when any reason it carries after the
`REASON:` marker is non-empty (errors are unconstrained: their reason is
built from a non-empty prefix). -/
def wellFormedReply : Except String String → Prop
  | Except.error _ => True
  | Except.ok text => ∀ r, reasonOf (stripChars text.data) = some r → r ≠ []

/-! ### Helper lemmas -/

theorem fuzzyCompFind_some_length {thr : Nat} {comps : List String} :
    ∀ {tokens : List (List Char)} {tok c : List Char} {sc : Nat},
      fuzzyCompFind thr comps tokens = some (tok, c, sc) → 3 < tok.length := by
  intro tokens
  induction tokens with
  | nil => intro tok c sc h; simp [fuzzyCompFind] at h
  | cons a l ih =>
    intro tok c sc h
    simp only [fuzzyCompFind] at h
    split at h
    · rename_i ha
      split at h
      · split at h
        · cases h; exact ha
        · exact ih h
      · exact ih h
    · exact ih h

/-! ### Claim theorems -/

/-- C2: if layer one passes and the external classifier call raises an error,
`check_input` returns Unsafe with a reason derived from the error text; it
never returns Safe and the error is not propagated (the result is an
ordinary pair). -/
theorem classifier_error_fails_closed (cfg : Config)
    (classify : String → Except String String) (x e : String)
    (h1 : (applyLayerOne cfg x).1 = true) (h2 : classify x = Except.error e) :
    check_input cfg classify x =
      (false, some ("Error in secondary content check: " ++ e)) := by
  simp [check_input, h1, h2, applyLayerTwo]

theorem classifier_error_fails_closed_witness :
    check_input ⟨[], [], [], 85, 85⟩ (fun _ => Except.error "boom") "hello" =
      (false, some ("Error in secondary content check: " ++ "boom")) :=
  classifier_error_fails_closed ⟨[], [], [], 85, 85⟩
    (fun _ => Except.error "boom") "hello" "boom" (by decide) rfl

/-- C5: a token of length at most 3 is transparent to the token-level fuzzy
competitor check, whatever its similarity score, and any token that does
trigger the check has length strictly greater than 3. -/
theorem short_tokens_never_fuzzy_match :
    (∀ (thr : Nat) (comps : List String) (tok : List Char) (rest : List (List Char)),
      tok.length ≤ 3 →
      fuzzyCompFind thr comps (tok :: rest) = fuzzyCompFind thr comps rest) ∧
    (∀ (thr : Nat) (comps : List String) (tokens : List (List Char))
      (tok c : List Char) (sc : Nat),
      fuzzyCompFind thr comps tokens = some (tok, c, sc) → 3 < tok.length) := by
  constructor
  · intro thr comps tok rest h
    have h3 : ¬ 3 < tok.length := Nat.not_lt.mpr h
    simp only [fuzzyCompFind, if_neg h3]
  · intro thr comps tokens tok c sc h
    exact fuzzyCompFind_some_length h

theorem short_tokens_never_fuzzy_match_witness :
    fuzzyCompFind 50 ["abcd"] (('a' :: 'b' :: 'c' :: []) :: []) = none ∧
    ratioProcessed ('a' :: 'b' :: 'c' :: []) (lowerStr "abcd") = 86 :=
  ⟨(short_tokens_never_fuzzy_match.1 50 ["abcd"] ('a' :: 'b' :: 'c' :: []) []
      (by decide)).trans (by decide),
   by decide⟩

/-- C6 counterexample: with competitor list `["MindChamp"]` and competitor
threshold 85, the character-ratio score of the token `champ` against
`mindchamp` is 71, which does not exceed 85, and the input
`"Mind Champ has a new program"` is not rejected by the token-level fuzzy
competitor check. -/
theorem mindchamp_fuzzy_claim_false :
    ratioProcessed ('c' :: 'h' :: 'a' :: 'm' :: 'p' :: []) (lowerStr "MindChamp") = 71 ∧
    ¬ 85 < ratioProcessed ('c' :: 'h' :: 'a' :: 'm' :: 'p' :: []) (lowerStr "MindChamp") ∧
    fuzzyCompFind 85 ["MindChamp"]
      (tokenize (lowerStr "Mind Champ has a new program")) = none := by
  decide

/-- C6 amended: with competitor list `["MindChamp"]` and competitor threshold
85, the token `champ` scores 71 against `mindchamp`, below the threshold,
so the input `"Mind Champ has a new program"` passes the token-level fuzzy
competitor check and all of layer one. -/
theorem mindchamp_not_rejected_by_fuzzy :
    ratioProcessed ('c' :: 'h' :: 'a' :: 'm' :: 'p' :: []) (lowerStr "MindChamp") = 71 ∧
    fuzzyCompFind 85 ["MindChamp"]
      (tokenize (lowerStr "Mind Champ has a new program")) = none ∧
    applyLayerOne ⟨["MindChamp"], [], [], 85, 85⟩
      "Mind Champ has a new program" = (true, none) := by
  decide

/-- C7: the check is deterministic across calls: two invocations of
`check_input` with the same input, the same configuration, and an oracle
that returns the same reply on both calls produce identical results. -/
theorem check_input_deterministic (cfg : Config)
    (oracle : Nat → String → Except String String) (i j : Nat) (x : String)
    (h : oracle i x = oracle j x) :
    check_input_call cfg oracle i x = check_input_call cfg oracle j x := by
  simp only [check_input_call, check_input, h]

theorem bigrams_eq_nil_of_short {l : List (List Char)} (h : l.length < 2) :
    bigrams l = [] := by
  cases l with
  | nil => rfl
  | cons a t =>
    cases t with
    | nil => rfl
    | cons b r => simp [List.length_cons] at h; omega

theorem applyLayerTwo_safe_eq (reply : Except String String)
    (h : (applyLayerTwo reply).1 = true) : applyLayerTwo reply = (true, none) := by
  cases reply with
  | error e => simp [applyLayerTwo] at h
  | ok text =>
    by_cases hc : containsSub (stripChars text.data) safeMarker = true
    · simp [applyLayerTwo, parseReply, hc]
    · exfalso
      rw [Bool.not_eq_true] at hc
      simp only [applyLayerTwo, parseReply, hc, Bool.false_eq_true, if_false] at h
      cases hro : reasonOf (stripChars text.data) <;> simp [hro] at h

/-- C1: if the input contains some configured competitor, off-topic or
jailbreak term as a whole word of its lowercased text, then `check_input`
rejects it with a reason naming the matching term, and the result does not
depend on the classifier oracle or on either fuzzy threshold: neither the
fuzzy stage nor the semantic stage can influence the verdict. -/
theorem lexical_match_shortcircuits (comps ot jb : List String) (x : String)
    (h : ∃ t ∈ comps ++ ot ++ jb, reSearchBounded (lowerStr t) (lowerStr x) = true) :
    ∃ t ∈ comps ++ ot ++ jb, reSearchBounded (lowerStr t) (lowerStr x) = true ∧
      ∃ reason : String,
        (reason = "Input mentions competitor: " ++ t ∨
         reason = "Input contains off-topic term: " ++ t ∨
         reason = "Input contains potential jailbreak attempt: " ++ t) ∧
        ∀ (classify : String → Except String String) (ft ct : Nat),
          check_input ⟨comps, ot, jb, ft, ct⟩ classify x = (false, some reason) := by
  cases hc : lexFind comps (lowerStr x) with
  | some c =>
    have hc2 := hc
    simp only [lexFind] at hc2
    refine ⟨c, List.mem_append_left jb (List.mem_append_left ot
      (List.mem_of_find?_eq_some hc2)), by simpa using List.find?_some hc2, ?_⟩
    refine ⟨_, Or.inl rfl, fun classify ft ct => ?_⟩
    simp [check_input, applyLayerOne, hc]
  | none =>
    cases ho : lexFind ot (lowerStr x) with
    | some c =>
      have ho2 := ho
      simp only [lexFind] at ho2
      refine ⟨c, List.mem_append_left jb (List.mem_append_right comps
        (List.mem_of_find?_eq_some ho2)), by simpa using List.find?_some ho2, ?_⟩
      refine ⟨_, Or.inr (Or.inl rfl), fun classify ft ct => ?_⟩
      simp [check_input, applyLayerOne, hc, ho]
    | none =>
      cases hj : lexFind jb (lowerStr x) with
      | some c =>
        have hj2 := hj
        simp only [lexFind] at hj2
        refine ⟨c, List.mem_append_right (comps ++ ot)
          (List.mem_of_find?_eq_some hj2), by simpa using List.find?_some hj2, ?_⟩
        refine ⟨_, Or.inr (Or.inr rfl), fun classify ft ct => ?_⟩
        simp [check_input, applyLayerOne, hc, ho, hj]
      | none =>
        exfalso
        obtain ⟨t, ht, hm⟩ := h
        simp only [lexFind] at hc ho hj
        rcases List.mem_append.1 ht with h1 | h1
        · rcases List.mem_append.1 h1 with h2 | h2
          · exact absurd hm (by simpa using List.find?_eq_none.1 hc t h2)
          · exact absurd hm (by simpa using List.find?_eq_none.1 ho t h2)
        · exact absurd hm (by simpa using List.find?_eq_none.1 hj t h1)

theorem lexical_match_shortcircuits_witness :
    ∃ t ∈ ["Acme"] ++ ["politics"] ++ ["ignore previous instructions"],
      reSearchBounded (lowerStr t) (lowerStr "tell me about politics") = true ∧
      ∃ reason : String,
        (reason = "Input mentions competitor: " ++ t ∨
         reason = "Input contains off-topic term: " ++ t ∨
         reason = "Input contains potential jailbreak attempt: " ++ t) ∧
        ∀ (classify : String → Except String String) (ft ct : Nat),
          check_input ⟨["Acme"], ["politics"], ["ignore previous instructions"], ft, ct⟩
            classify "tell me about politics" = (false, some reason) :=
  lexical_match_shortcircuits ["Acme"] ["politics"] ["ignore previous instructions"]
    "tell me about politics" ⟨"politics", by decide, by decide⟩

/-- C8: the stages run in a fixed short-circuiting order.  Each conjunct
states that when every earlier check finds nothing and a given check
matches, the verdict is that check's rejection, independently of everything
only later stages read (the remaining term lists, the thresholds, the
classifier oracle); the last conjunct states that when all of layer one
finds nothing, the verdict is exactly the semantic stage's. -/
theorem stage_order_shortcircuit :
    (∀ (comps ot jb : List String) (ft ct : Nat)
      (classify : String → Except String String) (x : String) (c : String),
      lexFind comps (lowerStr x) = some c →
      check_input ⟨comps, ot, jb, ft, ct⟩ classify x =
        (false, some ("Input mentions competitor: " ++ c))) ∧
    (∀ (comps ot jb : List String) (ft ct : Nat)
      (classify : String → Except String String) (x : String) (t : String),
      lexFind comps (lowerStr x) = none → lexFind ot (lowerStr x) = some t →
      check_input ⟨comps, ot, jb, ft, ct⟩ classify x =
        (false, some ("Input contains off-topic term: " ++ t))) ∧
    (∀ (comps ot jb : List String) (ft ct : Nat)
      (classify : String → Except String String) (x : String) (t : String),
      lexFind comps (lowerStr x) = none → lexFind ot (lowerStr x) = none →
      lexFind jb (lowerStr x) = some t →
      check_input ⟨comps, ot, jb, ft, ct⟩ classify x =
        (false, some ("Input contains potential jailbreak attempt: " ++ t))) ∧
    (∀ (comps ot jb : List String) (ft ct : Nat)
      (classify : String → Except String String) (x : String)
      (tok c : List Char) (sc : Nat),
      lexFind comps (lowerStr x) = none → lexFind ot (lowerStr x) = none →
      lexFind jb (lowerStr x) = none →
      fuzzyCompFind ct comps (tokenize (lowerStr x)) = some (tok, c, sc) →
      check_input ⟨comps, ot, jb, ft, ct⟩ classify x =
        (false, some ("Input possibly mentions competitor: " ++ String.mk c ++
          " (fuzzy match)"))) ∧
    (∀ (comps ot jb : List String) (ft ct : Nat)
      (classify : String → Except String String) (x : String)
      (g t : List Char) (sc : Nat),
      lexFind comps (lowerStr x) = none → lexFind ot (lowerStr x) = none →
      lexFind jb (lowerStr x) = none →
      fuzzyCompFind ct comps (tokenize (lowerStr x)) = none →
      fuzzyJBFind ft jb (tokenize (lowerStr x)) = some (g, t, sc) →
      check_input ⟨comps, ot, jb, ft, ct⟩ classify x =
        (false, some ("Input possibly contains jailbreak attempt: " ++ String.mk t ++
          " (fuzzy match)"))) ∧
    (∀ (comps ot jb : List String) (ft ct : Nat)
      (classify : String → Except String String) (x : String),
      lexFind comps (lowerStr x) = none → lexFind ot (lowerStr x) = none →
      lexFind jb (lowerStr x) = none →
      fuzzyCompFind ct comps (tokenize (lowerStr x)) = none →
      fuzzyJBFind ft jb (tokenize (lowerStr x)) = none →
      check_input ⟨comps, ot, jb, ft, ct⟩ classify x = applyLayerTwo (classify x)) := by
  refine ⟨?_, ?_, ?_, ?_, ?_, ?_⟩
  · intro comps ot jb ft ct classify x c h1
    simp [check_input, applyLayerOne, h1]
  · intro comps ot jb ft ct classify x t h1 h2
    simp [check_input, applyLayerOne, h1, h2]
  · intro comps ot jb ft ct classify x t h1 h2 h3
    simp [check_input, applyLayerOne, h1, h2, h3]
  · intro comps ot jb ft ct classify x tok c sc h1 h2 h3 h4
    simp [check_input, applyLayerOne, h1, h2, h3, h4]
  · intro comps ot jb ft ct classify x g t sc h1 h2 h3 h4 h5
    simp [check_input, applyLayerOne, h1, h2, h3, h4, h5]
  · intro comps ot jb ft ct classify x h1 h2 h3 h4 h5
    have hl1 : applyLayerOne ⟨comps, ot, jb, ft, ct⟩ x = (true, none) := by
      simp [applyLayerOne, h1, h2, h3, h4, h5]
    cases hA : applyLayerTwo (classify x) with
    | mk b o =>
      cases b with
      | false => simp [check_input, hl1, hA]
      | true =>
        have heq := applyLayerTwo_safe_eq (classify x) (by rw [hA])
        have ho : o = none := by
          have h0 := hA.symm.trans heq
          injection h0
        subst ho
        simp [check_input, hl1, heq]

theorem stage_order_shortcircuit_witness :
    check_input ⟨["Acme"], ["politics"], ["dan mode"], 80, 85⟩
      (fun _ => Except.ok "IS_SAFE: YES") "i follow politics" =
      (false, some ("Input contains off-topic term: " ++ "politics")) :=
  stage_order_shortcircuit.2.1 ["Acme"] ["politics"] ["dan mode"] 80 85
    (fun _ => Except.ok "IS_SAFE: YES") "i follow politics" "politics"
    (by decide) (by decide)

/-- C10: an input with fewer than two word tokens never reaches the bigram
fuzzy jailbreak check: that check finds nothing, and if the lexical checks
and the token-level fuzzy competitor check also find nothing, the verdict
is exactly the semantic classifier's. -/
theorem short_input_skips_bigram_check (cfg : Config)
    (classify : String → Except String String) (x : String)
    (htok : (tokenize (lowerStr x)).length < 2)
    (h1 : lexFind cfg.competitors (lowerStr x) = none)
    (h2 : lexFind cfg.off_topic (lowerStr x) = none)
    (h3 : lexFind cfg.jailbreak (lowerStr x) = none)
    (h4 : fuzzyCompFind cfg.competitor_threshold cfg.competitors
      (tokenize (lowerStr x)) = none) :
    fuzzyJBFind cfg.fuzzy_threshold cfg.jailbreak (tokenize (lowerStr x)) = none ∧
    applyLayerOne cfg x = (true, none) ∧
    check_input cfg classify x = applyLayerTwo (classify x) := by
  have hb : fuzzyJBFind cfg.fuzzy_threshold cfg.jailbreak (tokenize (lowerStr x)) = none := by
    simp [fuzzyJBFind, bigrams_eq_nil_of_short htok, fuzzyJBGo]
  have hl1 : applyLayerOne cfg x = (true, none) := by
    simp [applyLayerOne, h1, h2, h3, h4, hb]
  refine ⟨hb, hl1, ?_⟩
  cases hA : applyLayerTwo (classify x) with
  | mk b o =>
    cases b with
    | false => simp [check_input, hl1, hA]
    | true =>
      have heq := applyLayerTwo_safe_eq (classify x) (by rw [hA])
      have ho : o = none := by
        have h0 := hA.symm.trans heq
        injection h0
      subst ho
      simp [check_input, hl1, heq]

theorem short_input_skips_bigram_check_witness :
    fuzzyJBFind 80 ["ignore previous instructions"] (tokenize (lowerStr "hello")) = none ∧
    applyLayerOne ⟨["Acme"], ["politics"], ["ignore previous instructions"], 80, 85⟩
      "hello" = (true, none) ∧
    check_input ⟨["Acme"], ["politics"], ["ignore previous instructions"], 80, 85⟩
      (fun _ => Except.ok "IS_SAFE: YES") "hello" =
      applyLayerTwo (Except.ok "IS_SAFE: YES") :=
  short_input_skips_bigram_check
    ⟨["Acme"], ["politics"], ["ignore previous instructions"], 80, 85⟩
    (fun _ => Except.ok "IS_SAFE: YES") "hello"
    (by decide) (by decide) (by decide) (by decide) (by decide)

theorem check_input_deterministic_witness :
    check_input_call ⟨["acme"], [], [], 80, 85⟩
      (fun _ _ => Except.ok "IS_SAFE: YES") 0 "hi" =
    check_input_call ⟨["acme"], [], [], 80, 85⟩
      (fun _ _ => Except.ok "IS_SAFE: YES") 1 "hi" :=
  check_input_deterministic ⟨["acme"], [], [], 80, 85⟩
    (fun _ _ => Except.ok "IS_SAFE: YES") 0 1 "hi" rfl

theorem ne_empty_of_data_ne_nil (s : String) (h : s.data ≠ []) : s ≠ "" := by
  intro he
  exact h (by rw [he])

theorem data_append_ne_nil (s t : String) (h : s.data ≠ []) : (s ++ t).data ≠ [] := by
  rw [String.data_append]
  intro he
  exact h (List.append_eq_nil.mp he).1

theorem applyLayerOne_shape (cfg : Config) (x : String) :
    applyLayerOne cfg x = (true, none) ∨
      ∃ r, applyLayerOne cfg x = (false, some r) ∧ r ≠ "" := by
  cases hc : lexFind cfg.competitors (lowerStr x) with
  | some c =>
    refine Or.inr ⟨"Input mentions competitor: " ++ c, by simp [applyLayerOne, hc], ?_⟩
    exact ne_empty_of_data_ne_nil _ (data_append_ne_nil _ _ (by decide))
  | none =>
  cases ho : lexFind cfg.off_topic (lowerStr x) with
  | some t =>
    refine Or.inr ⟨"Input contains off-topic term: " ++ t,
      by simp [applyLayerOne, hc, ho], ?_⟩
    exact ne_empty_of_data_ne_nil _ (data_append_ne_nil _ _ (by decide))
  | none =>
  cases hj : lexFind cfg.jailbreak (lowerStr x) with
  | some t =>
    refine Or.inr ⟨"Input contains potential jailbreak attempt: " ++ t,
      by simp [applyLayerOne, hc, ho, hj], ?_⟩
    exact ne_empty_of_data_ne_nil _ (data_append_ne_nil _ _ (by decide))
  | none =>
  cases hf : fuzzyCompFind cfg.competitor_threshold cfg.competitors
      (tokenize (lowerStr x)) with
  | some r =>
    refine Or.inr ⟨"Input possibly mentions competitor: " ++ String.mk r.2.1 ++
      " (fuzzy match)", by simp [applyLayerOne, hc, ho, hj, hf], ?_⟩
    exact ne_empty_of_data_ne_nil _
      (data_append_ne_nil _ _ (data_append_ne_nil _ _ (by decide)))
  | none =>
  cases hg : fuzzyJBFind cfg.fuzzy_threshold cfg.jailbreak (tokenize (lowerStr x)) with
  | some r =>
    refine Or.inr ⟨"Input possibly contains jailbreak attempt: " ++ String.mk r.2.1 ++
      " (fuzzy match)", by simp [applyLayerOne, hc, ho, hj, hf, hg], ?_⟩
    exact ne_empty_of_data_ne_nil _
      (data_append_ne_nil _ _ (data_append_ne_nil _ _ (by decide)))
  | none =>
    exact Or.inl (by simp [applyLayerOne, hc, ho, hj, hf, hg])

theorem applyLayerTwo_shape (reply : Except String String) :
    applyLayerTwo reply = (true, none) ∨
      ∃ r, applyLayerTwo reply = (false, some r) ∧ (wellFormedReply reply → r ≠ "") := by
  cases reply with
  | error e =>
    refine Or.inr ⟨_, rfl, fun _ => ?_⟩
    exact ne_empty_of_data_ne_nil _ (data_append_ne_nil _ _ (by decide))
  | ok text =>
    by_cases hc : containsSub (stripChars text.data) safeMarker = true
    · exact Or.inl (by simp [applyLayerTwo, parseReply, hc])
    · rw [Bool.not_eq_true] at hc
      cases hro : reasonOf (stripChars text.data) with
      | some r =>
        refine Or.inr ⟨String.mk r, by simp [applyLayerTwo, parseReply, hc, hro],
          fun hw => ?_⟩
        have hw2 : ∀ r2, reasonOf (stripChars text.data) = some r2 → r2 ≠ [] := hw
        have hr : r ≠ [] := hw2 r hro
        intro he
        apply hr
        have hd : (String.mk r).data = [] := by rw [he]
        simpa using hd
      | none =>
        exact Or.inr ⟨"Content flagged by secondary AI check",
          by simp [applyLayerTwo, parseReply, hc, hro], fun _ => by decide⟩

/-- C4 counterexample: the claim that the reason is non-empty in every Unsafe
outcome fails: when layer one passes and the classifier reply is
`IS_SAFE: NO` followed by a bare `REASON:` marker with no text,
`check_input` returns Unsafe with the empty string as reason. -/
theorem empty_reason_counterexample :
    check_input ⟨[], [], [], 85, 85⟩
      (fun _ => Except.ok "IS_SAFE: NO\nREASON:") "hello" = (false, some "") := by
  decide

/-- C4 amended: `check_input` always returns `(true, none)` or
`(false, some reason)`; the reason is non-empty whenever the verdict is
Unsafe, except that a classifier reply whose `REASON:` marker is followed
by no non-whitespace text on its line yields the empty string as reason
(the well-formedness hypothesis excludes exactly those replies). -/
theorem check_input_result_shape (cfg : Config)
    (classify : String → Except String String) (x : String) :
    (check_input cfg classify x = (true, none) ∨
      ∃ r, check_input cfg classify x = (false, some r)) ∧
    (wellFormedReply (classify x) →
      ∀ r, check_input cfg classify x = (false, some r) → r ≠ "") := by
  rcases applyLayerOne_shape cfg x with h1 | ⟨r1, h1, hr1⟩
  · rcases applyLayerTwo_shape (classify x) with h2 | ⟨r2, h2, hr2⟩
    · have hv : check_input cfg classify x = (true, none) := by
        simp [check_input, h1, h2]
      refine ⟨Or.inl hv, fun hw r hcheck => ?_⟩
      rw [hv] at hcheck
      exact absurd hcheck (by simp)
    · have hv : check_input cfg classify x = (false, some r2) := by
        simp [check_input, h1, h2]
      refine ⟨Or.inr ⟨r2, hv⟩, fun hw r hcheck => ?_⟩
      rw [hv] at hcheck
      have he : r2 = r := by simpa using hcheck
      exact he ▸ hr2 hw
  · have hv : check_input cfg classify x = (false, some r1) := by
      simp [check_input, h1]
    refine ⟨Or.inr ⟨r1, hv⟩, fun hw r hcheck => ?_⟩
    rw [hv] at hcheck
    have he : r1 = r := by simpa using hcheck
    exact he ▸ hr1

theorem check_input_result_shape_witness :
    (check_input ⟨[], [], [], 85, 85⟩ (fun _ => Except.error "boom") "hi" = (true, none) ∨
      ∃ r, check_input ⟨[], [], [], 85, 85⟩
        (fun _ => Except.error "boom") "hi" = (false, some r)) ∧
    ("Error in secondary content check: " ++ "boom" : String) ≠ "" :=
  ⟨(check_input_result_shape ⟨[], [], [], 85, 85⟩ (fun _ => Except.error "boom") "hi").1,
   (check_input_result_shape ⟨[], [], [], 85, 85⟩ (fun _ => Except.error "boom") "hi").2
     True.intro ("Error in secondary content check: " ++ "boom") (by decide)⟩

theorem containsSub_iff (s pat : List Char) :
    containsSub s pat = true ↔ ∃ a b, s = a ++ pat ++ b := by
  induction s with
  | nil =>
    simp only [containsSub, List.isEmpty_iff]
    constructor
    · rintro rfl
      exact ⟨[], [], rfl⟩
    · rintro ⟨a, b, h⟩
      rcases List.append_eq_nil.mp h.symm with ⟨h1, -⟩
      exact (List.append_eq_nil.mp h1).2
  | cons c s ih =>
    simp only [containsSub, Bool.or_eq_true, List.isPrefixOf_iff_prefix, ih]
    constructor
    · rintro (hpre | ⟨a, b, hcb⟩)
      · obtain ⟨b, hb⟩ := hpre
        exact ⟨[], b, by rw [List.nil_append]; exact hb.symm⟩
      · exact ⟨c :: a, b, by simp [hcb]⟩
    · rintro ⟨a, b, hab⟩
      cases a with
      | nil =>
        exact Or.inl ⟨b, by simpa using hab.symm⟩
      | cons a0 a2 =>
        rw [List.cons_append, List.cons_append] at hab
        injection hab with h1 h2
        exact Or.inr ⟨a2, b, h2⟩

theorem containsSub_reverse (s pat : List Char) :
    containsSub s.reverse pat.reverse = true ↔ containsSub s pat = true := by
  rw [containsSub_iff, containsSub_iff]
  constructor
  · rintro ⟨a, b, h⟩
    refine ⟨b.reverse, a.reverse, ?_⟩
    have h2 := congrArg List.reverse h
    simpa [List.reverse_append] using h2
  · rintro ⟨a, b, h⟩
    exact ⟨b.reverse, a.reverse, by simp [h, List.reverse_append]⟩

theorem containsSub_dropWhile_front {pat : List Char} (p0 : Char) (ps : List Char)
    (hpat : pat = p0 :: ps) (h0 : isSpaceChar p0 = false) (s : List Char) :
    containsSub (s.dropWhile isSpaceChar) pat = true ↔ containsSub s pat = true := by
  induction s with
  | nil => simp
  | cons c s ih =>
    rw [List.dropWhile_cons]
    by_cases hcs : isSpaceChar c = true
    · rw [if_pos hcs, ih]
      subst hpat
      have hpre : ((p0 :: ps).isPrefixOf (c :: s)) = false := by
        rw [Bool.eq_false_iff]
        intro hp
        rw [List.isPrefixOf_iff_prefix] at hp
        rcases List.prefix_cons_iff.mp hp with h1 | ⟨t, h1, -⟩
        · cases h1
        · injection h1 with hh hh2
          rw [hh, hcs] at h0
          cases h0
      simp [containsSub, hpre]
    · rw [Bool.not_eq_true] at hcs
      simp [hcs]

theorem containsSub_strip (pat : List Char) (p0 q0 : Char) (ps : List Char)
    (hpat : pat = p0 :: ps) (hlast : pat.getLast? = some q0)
    (h0 : isSpaceChar p0 = false) (h1 : isSpaceChar q0 = false) (s : List Char) :
    containsSub (stripChars s) pat = true ↔ containsSub s pat = true := by
  obtain ⟨rs, hrev⟩ : ∃ rs, pat.reverse = q0 :: rs := by
    cases hr : pat.reverse with
    | nil =>
      subst hpat
      exact absurd (congrArg List.length hr) (by simp)
    | cons r0 rs =>
      have hh := List.head?_reverse pat
      rw [hr, hlast] at hh
      injection hh with hh2
      rw [hh2]
      exact ⟨rs, rfl⟩
  have step1 : containsSub (stripChars s) pat = true ↔
      containsSub ((s.dropWhile isSpaceChar).reverse.dropWhile isSpaceChar)
        pat.reverse = true := by
    have h2 := containsSub_reverse
      ((s.dropWhile isSpaceChar).reverse.dropWhile isSpaceChar) pat.reverse
    rw [List.reverse_reverse] at h2
    rw [stripChars]
    exact h2
  have step2 : containsSub ((s.dropWhile isSpaceChar).reverse.dropWhile isSpaceChar)
      pat.reverse = true ↔
      containsSub (s.dropWhile isSpaceChar).reverse pat.reverse = true :=
    containsSub_dropWhile_front q0 rs hrev h1 (s.dropWhile isSpaceChar).reverse
  have step3 : containsSub (s.dropWhile isSpaceChar).reverse pat.reverse = true ↔
      containsSub (s.dropWhile isSpaceChar) pat = true :=
    containsSub_reverse (s.dropWhile isSpaceChar) pat
  have step4 : containsSub (s.dropWhile isSpaceChar) pat = true ↔
      containsSub s pat = true :=
    containsSub_dropWhile_front p0 ps hpat h0 s
  exact ((step1.trans step2).trans step3).trans step4

theorem findSubIdx?_isSome (s pat : List Char) :
    (findSubIdx? s pat).isSome = containsSub s pat := by
  induction s with
  | nil => cases hpe : pat.isEmpty <;> simp [findSubIdx?, containsSub, hpe]
  | cons c s ih =>
    rw [findSubIdx?, containsSub]
    by_cases hp : pat.isPrefixOf (c :: s) = true
    · simp [hp]
    · rw [Bool.not_eq_true] at hp
      simp [hp, ih]

theorem reasonOf_isSome (s : List Char) :
    (reasonOf s).isSome = containsSub s reasonMarker := by
  rw [← findSubIdx?_isSome]
  cases h : findSubIdx? s reasonMarker <;> simp [reasonOf, h]

/-- C3: the semantic stage judges a reply safe exactly when it contains the
substring `IS_SAFE: YES`; any other reply yields Unsafe, with the reason
extracted after the first `REASON:` marker when one occurs in the reply and
the fixed generic fallback reason when it does not. -/
theorem parse_reply_safe_iff_marker (text : String) :
    ((parseReply text).1 = true ↔ containsSub text.data safeMarker = true) ∧
    ((parseReply text).1 = false →
      (containsSub text.data reasonMarker = true →
        ∃ r, reasonOf (stripChars text.data) = some r ∧
          (parseReply text).2 = some (String.mk r)) ∧
      (containsSub text.data reasonMarker = false →
        (parseReply text).2 = some "Content flagged by secondary AI check")) := by
  have hsafe := containsSub_strip safeMarker 'I' 'S'
    ('S' :: '_' :: 'S' :: 'A' :: 'F' :: 'E' :: ':' :: ' ' :: 'Y' :: 'E' :: 'S' :: [])
    rfl (by decide) (by decide) (by decide) text.data
  have hreason := containsSub_strip reasonMarker 'R' ':'
    ('E' :: 'A' :: 'S' :: 'O' :: 'N' :: ':' :: [])
    rfl (by decide) (by decide) (by decide) text.data
  by_cases hm : containsSub (stripChars text.data) safeMarker = true
  · refine ⟨⟨fun _ => hsafe.mp hm, fun _ => by simp [parseReply, hm]⟩, fun hfalse => ?_⟩
    exfalso
    simp [parseReply, hm] at hfalse
  · rw [Bool.not_eq_true] at hm
    have hm2 : containsSub text.data safeMarker = false := by
      cases hx : containsSub text.data safeMarker
      · rfl
      · rw [hsafe.mpr hx] at hm
        cases hm
    constructor
    · cases hro : reasonOf (stripChars text.data) <;>
        simp [parseReply, hm, hro, hm2]
    · intro hfalse
      constructor
      · intro hpres
        have hpres2 : containsSub (stripChars text.data) reasonMarker = true :=
          hreason.mpr hpres
        have hsome : (reasonOf (stripChars text.data)).isSome = true := by
          rw [reasonOf_isSome]
          exact hpres2
        obtain ⟨r, hr⟩ := Option.isSome_iff_exists.mp hsome
        exact ⟨r, hr, by simp [parseReply, hm, hr]⟩
      · intro habs
        have habs2 : containsSub (stripChars text.data) reasonMarker = false := by
          cases hx : containsSub (stripChars text.data) reasonMarker
          · rfl
          · rw [hreason.mp hx] at habs
            cases habs
        have hnone : reasonOf (stripChars text.data) = none := by
          have hiso : (reasonOf (stripChars text.data)).isSome = false := by
            rw [reasonOf_isSome, habs2]
          cases hro : reasonOf (stripChars text.data) with
          | none => rfl
          | some r =>
            rw [hro] at hiso
            cases hiso
        simp [parseReply, hm, hnone]

theorem parse_reply_safe_iff_marker_witness :
    ∃ r, reasonOf (stripChars ("IS_SAFE: NO\nREASON: off topic").data) = some r ∧
      (parseReply "IS_SAFE: NO\nREASON: off topic").2 = some (String.mk r) :=
  ((parse_reply_safe_iff_marker "IS_SAFE: NO\nREASON: off topic").2
    (by decide)).1 (by decide)

theorem lastOr_nil (prev : Option Char) : lastOr prev [] = prev := rfl

theorem lastOr_cons (prev : Option Char) (c : Char) (a : List Char) :
    lastOr prev (c :: a) = lastOr (some c) a := by
  cases a with
  | nil => simp [lastOr]
  | cons d a2 =>
    rw [lastOr, lastOr, List.getLast?_cons_cons]
    cases h : (d :: a2).getLast? with
    | some y => rfl
    | none =>
      exfalso
      rw [List.getLast?_eq_none_iff] at h
      cases h

theorem lastOr_none (a : List Char) : lastOr none a = a.getLast? := by
  cases h : a.getLast? <;> simp [lastOr, h]

theorem matchHere_iff (t0 : Char) (ts : List Char) (prev : Option Char) (s : List Char) :
    matchHere prev (t0 :: ts) s = true ↔
      ∃ b, s = (t0 :: ts) ++ b ∧
        (optWord prev != optWord (some t0)) = true ∧
        (optWord ((t0 :: ts).getLast?) != optWord b.head?) = true := by
  constructor
  · intro h
    rw [matchHere] at h
    simp only [Bool.and_eq_true, List.isPrefixOf_iff_prefix] at h
    obtain ⟨⟨⟨b, hb⟩, h2⟩, h3⟩ := h
    subst hb
    refine ⟨b, rfl, ?_, ?_⟩
    · simpa [List.cons_append] using h2
    · rw [List.drop_left] at h3
      simpa using h3
  · rintro ⟨b, hsb, h2, h3⟩
    subst hsb
    rw [matchHere]
    simp only [Bool.and_eq_true, List.isPrefixOf_iff_prefix]
    refine ⟨⟨⟨b, rfl⟩, ?_⟩, ?_⟩
    · simpa [List.cons_append] using h2
    · rw [List.drop_left]
      simpa using h3

theorem reSearchGo_iff (t0 : Char) (ts : List Char) (s : List Char) :
    ∀ prev : Option Char,
      reSearchGo (t0 :: ts) prev s = true ↔
        ∃ a b, s = a ++ (t0 :: ts) ++ b ∧
          (optWord (lastOr prev a) != optWord (some t0)) = true ∧
          (optWord ((t0 :: ts).getLast?) != optWord b.head?) = true := by
  induction s with
  | nil =>
    intro prev
    rw [reSearchGo]
    constructor
    · intro h
      rw [matchHere] at h
      simp at h
    · rintro ⟨a, b, hab, -, -⟩
      exfalso
      rcases List.append_eq_nil.mp hab.symm with ⟨h1, -⟩
      rcases List.append_eq_nil.mp h1 with ⟨-, h2⟩
      cases h2
  | cons c s ih =>
    intro prev
    rw [reSearchGo]
    simp only [Bool.or_eq_true]
    rw [matchHere_iff, ih (some c)]
    constructor
    · rintro (⟨b, hcb, h2, h3⟩ | ⟨a, b, hcb, h2, h3⟩)
      · exact ⟨[], b, by simpa using hcb, by simpa [lastOr] using h2, h3⟩
      · exact ⟨c :: a, b, by simp [hcb], by rwa [lastOr_cons], h3⟩
    · rintro ⟨a, b, hab, h2, h3⟩
      cases a with
      | nil =>
        exact Or.inl ⟨b, by simpa using hab, by simpa [lastOr] using h2, h3⟩
      | cons a0 a2 =>
        rw [List.cons_append, List.cons_append] at hab
        injection hab with h1 hrest
        subst h1
        refine Or.inr ⟨a2, b, hrest, ?_, h3⟩
        rwa [lastOr_cons] at h2

/-- C9: for a non-empty configured term that contains punctuation or spans
several words (it has a non-word character), the lexical matcher matches it
exactly when its lowercased text occurs literally and contiguously in the
lowercased input with a word boundary on each end: the characters adjacent
to the occurrence (if any) differ in word-character status from the
occurrence's end characters. -/
theorem literal_term_word_boundary_iff (term input : String)
    (hne : lowerStr term ≠ [])
    (_hpunct : ∃ c ∈ lowerStr term, isWordChar c = false) :
    reSearchBounded (lowerStr term) (lowerStr input) = true ↔
      ∃ a b, lowerStr input = a ++ lowerStr term ++ b ∧
        (optWord a.getLast? != optWord (lowerStr term).head?) = true ∧
        (optWord (lowerStr term).getLast? != optWord b.head?) = true := by
  obtain ⟨t0, ts, ht⟩ : ∃ t0 ts, lowerStr term = t0 :: ts := by
    cases h : lowerStr term with
    | nil => exact absurd h hne
    | cons t0 ts => exact ⟨t0, ts, rfl⟩
  rw [reSearchBounded, ht, reSearchGo_iff]
  simp only [lastOr_none, List.head?_cons]

theorem literal_term_word_boundary_iff_witness :
    ∃ a b, lowerStr "I like Mind Champ a lot" = a ++ lowerStr "mind champ" ++ b ∧
      (optWord a.getLast? != optWord (lowerStr "mind champ").head?) = true ∧
      (optWord (lowerStr "mind champ").getLast? != optWord b.head?) = true :=
  (literal_term_word_boundary_iff "mind champ" "I like Mind Champ a lot"
    (by decide) (by decide)).mp (by decide)
